import Mathlib

/-!
Verification of the fvnbloom Bloom filter library (`fvnbloom/pybloom.py`).

Modelling conventions for the shallow embedding:

* All 32-bit machine words are represented by their unsigned bit pattern,
  a `Nat` strictly below `2^32`.  The numba `int32(int32)` signatures on
  `fnv_multiply` / `fnv_mix` coerce the argument and the return value to
  `int32`; the bodies themselves run in `int64` (numba types the shift
  literals as `intp` and widens), truncating to 32 bits only at the return.
  For the linear `fnv_multiply` that is the same as working `% 4294967296`
  throughout; for `fnv_mix` the signed right shifts `a >> 7` / `a >> 17`
  are `int64` arithmetic shifts that feed bits `≥ 32` back into the low
  word, so its body is modelled as exact 64-bit pattern arithmetic
  (`signExtend32`, `asr64`) with a single final truncation.
* Keys reach the hash as byte strings (`key.encode()`); a key is modelled
  as its byte sequence, a `List Nat`.
* numba follows Python semantics for `%` on integers: the result takes the
  sign of the divisor, so for a positive modulus `m` the result is already
  in `[0, m)`.  Lean's `Int.emod` (the `%` of `Int`) is Euclidean and
  agrees with Python floor-mod for positive moduli.
* The locations buffer `self._locations` is a numpy `uint32` array, so a
  value stored into it is reduced `% 4294967296`.
* numpy `int32` buckets are bit patterns; `buckets[i] |= 1 << (b % 32)`
  and the test `buckets[i] & (1 << (b % 32)) == 0` act on the pattern.
* In-place mutation is modelled by state passing: an operation that
  mutates an array returns the new array.  `assert` failures and `raise`
  are modelled with `Except`.
-/

/-- The 32-bit word modulus `2^32`. -/
def U32 : Nat := 4294967296

/-- `fnv_multiply` from pybloom.py: `a + (a<<1) + (a<<4) + (a<<7) + (a<<8) + (a<<24)`
under the numba `int32(int32)` signature, i.e. with 32-bit wraparound. -/
def fnv_multiply (a : Nat) : Nat :=
  (a + (a <<< 1) + (a <<< 4) + (a <<< 7) + (a <<< 8) + (a <<< 24)) % U32

/-- The 64-bit word modulus `2^64`. -/
def U64 : Nat := 18446744073709551616

/-- Sign extension of a 32-bit pattern to a 64-bit pattern: how numba widens
the `int32` argument of `fnv_mix` into the `int64` arithmetic of its body. -/
def signExtend32 (a : Nat) : Nat :=
  if a < 2147483648 then a else a + (U64 - U32)

/-- Arithmetic (sign-propagating) right shift of a 64-bit pattern, as numba
performs on a signed `int64`: when the sign bit is set the vacated high bits
are filled with ones. -/
def asr64 (a k : Nat) : Nat :=
  if a < 9223372036854775808 then a >>> k else (a >>> k) ||| (U64 - (U64 >>> k))

/-- `fnv_mix` from pybloom.py: the Jenkins-style finisher
`a += a<<13; a ^= a>>7; a += a<<3; a ^= a>>17; a += a<<5; return a & 0xffffffff`.
The `int32(int32)` signature coerces only the argument and the return value:
numba types the shift-amount literals as `intp`, its shift typing widens each
shift (and then each add and xor) to `int64`, so the body runs in exact
`int64` arithmetic — the arithmetic right shifts `>> 7` and `>> 17` feed the
accumulated bits at positions `≥ 32` back into the low word — and only the
final `& 0xffffffff` (with the return coercion) truncates to 32 bits.  The
intermediates stay below `2^55` in magnitude, so 64-bit wraparound never
fires and the `% 2^64` reductions here are exact two's-complement patterns. -/
def fnv_mix (a : Nat) : Nat :=
  let a0 := signExtend32 a
  let a1 := (a0 + (a0 <<< 13)) % U64
  let a2 := a1 ^^^ asr64 a1 7
  let a3 := (a2 + (a2 <<< 3)) % U64
  let a4 := a3 ^^^ asr64 a3 17
  let a5 := (a4 + (a4 <<< 5)) % U64
  a5 &&& 0xffffffff

/-- One iteration of the `fnv_1a` loop body from pybloom.py:
`c = v[i]; d = c & 0xff00; if d: a = fnv_multiply(a ^ d >> 8); a = fnv_multiply(a ^ c & 0xff)`. -/
def fnv_1a_step (a c : Nat) : Nat :=
  let d := c &&& 0xff00
  let a := if d ≠ 0 then fnv_multiply (a ^^^ (d >>> 8)) else a
  fnv_multiply (a ^^^ (c &&& 0xff))

/-- `fnv_1a` from pybloom.py: seeded FNV-1a over the element sequence `v`,
starting from `2166136261 ^ seed`, finished by `fnv_mix`. -/
def fnv_1a (v : List Nat) (seed : Nat) : Nat :=
  fnv_mix (v.foldl fnv_1a_step (2166136261 ^^^ seed))

/-- Signed reading of a 32-bit pattern (how numba widens an `int32` to
`int64` before the `%` in `bf_calculate_locations`). -/
def toSigned32 (a : Nat) : Int :=
  if a < 2147483648 then (a : Int) else (a : Int) - (U32 : Int)

/-- The loop of `bf_calculate_locations`: emit
`r[i] = x + m if x < 0 else x` (stored into a `uint32` array, hence the
reduction `% 2^32`), then advance `x = (x + b) % m`. -/
def bf_loc_loop (b m : Int) : Nat → Int → List Nat
  | 0, _ => []
  | k + 1, x =>
    (((if x < 0 then x + m else x) % (U32 : Int)).toNat) ::
      bf_loc_loop b m k ((x + b) % m)

/-- `bf_calculate_locations` from pybloom.py: `a = fnv_1a(key, 0)`,
`b = fnv_1a(key, 1576284489)`, `x = a % m`, then `num_hashes` loop
iterations.  The hash values are `int32`, hence read signed. -/
def bf_calculate_locations (num_hashes m : Nat) (key : List Nat) : List Nat :=
  let a := toSigned32 (fnv_1a key 0)
  let b := toSigned32 (fnv_1a key 1576284489)
  bf_loc_loop b (m : Int) num_hashes (a % (m : Int))

/-- `bf_test` from pybloom.py: `buckets[floor(b/32)] & (1 << (b % 32)) == 0`
short-circuits to `False`; all bits present gives `True`. -/
def bf_test (locations buckets : List Nat) : Bool :=
  locations.all fun b => (buckets.getD (b / 32) 0) &&& (1 <<< (b % 32)) != 0

/-- One iteration of the `bf_add` loop: `buckets[floor(b/32)] |= 1 << (b % 32)`
(in-place update modelled by returning the updated word list). -/
def bf_add_step (bs : List Nat) (b : Nat) : List Nat :=
  bs.set (b / 32) ((bs.getD (b / 32) 0) ||| (1 <<< (b % 32)))

/-- `bf_add` from pybloom.py: set the bucket bit of every location. -/
def bf_add (locations buckets : List Nat) : List Nat :=
  locations.foldl bf_add_step buckets

/-- `buckets_union` from pybloom.py: asserts the two arrays have the same
length before any write, then ORs `b2` into `b1` word by word. -/
def buckets_union (b1 b2 : List Nat) : Except String (List Nat) :=
  if b1.length = b2.length then
    Except.ok (List.zipWith (fun x y => x ||| y) b1 b2)
  else
    Except.error "assert n1 == n2"

/-- The `BloomFilter` object: `num_hashes` and the `buckets` word array.
`n` and `m` are derived in `__init__` as `len(buckets)` and `n * 32`. -/
structure BloomFilter where
  num_hashes : Nat
  buckets : List Nat
deriving Repr, DecidableEq

/-- `self.n = len(buckets)`. -/
def BloomFilter.n (f : BloomFilter) : Nat := f.buckets.length

/-- `self.m = self.n * 32`. -/
def BloomFilter.m (f : BloomFilter) : Nat := f.n * 32

/-- `BloomFilter._calculate_locations` (with `_calculate_key` already
applied: the key is its byte sequence). -/
def BloomFilter.locations (f : BloomFilter) (key : List Nat) : List Nat :=
  bf_calculate_locations f.num_hashes f.m key

/-- `BloomFilter.test` / `__contains__`. -/
def BloomFilter.test (f : BloomFilter) (key : List Nat) : Bool :=
  bf_test (f.locations key) f.buckets

/-- `BloomFilter.add`. -/
def BloomFilter.add (f : BloomFilter) (key : List Nat) : BloomFilter :=
  { f with buckets := bf_add (f.locations key) f.buckets }

/-- `BloomFilter.union`: asserts `self.num_hashes == other.num_hashes`,
then merges via `buckets_union`.  The pair returned is the post-state of
`(self, other)`; the code never writes to `other`, so its state is passed
through unchanged. -/
def BloomFilter.union (f1 f2 : BloomFilter) :
    Except String (BloomFilter × BloomFilter) :=
  if f1.num_hashes = f2.num_hashes then
    match buckets_union f1.buckets f2.buckets with
    | Except.ok b => Except.ok ({ f1 with buckets := b }, f2)
    | Except.error e => Except.error e
  else
    Except.error "assert self.num_hashes == other.num_hashes"

/-- Little-endian byte rendering of one 32-bit word, as
`np.array(buckets, dtype=int32).tobytes()` produces per word in `save`. -/
def word_to_bytes (w : Nat) : List Nat :=
  [w % 256, w / 256 % 256, w / 65536 % 256, w / 16777216 % 256]

/-- `save` from pybloom.py, up to the JSON/base64 armor (both stdlib
bijections on their domains): the persisted record is the pair of the
`num_hashes` field and the little-endian byte string of the word array. -/
def bf_save (f : BloomFilter) : Nat × List Nat :=
  (f.num_hashes, f.buckets.flatMap word_to_bytes)

/-- `np.frombuffer(..., dtype=int32)` in `load`: group the byte string
into little-endian 32-bit words (a trailing fragment of fewer than 4
bytes cannot occur on `save` output). -/
def bytes_to_words : List Nat → List Nat
  | b0 :: b1 :: b2 :: b3 :: rest =>
      (b0 + b1 * 256 + b2 * 65536 + b3 * 16777216) :: bytes_to_words rest
  | _ => []

/-- `load` from pybloom.py, after JSON/base64 decoding of the record:
`BloomFilter(d['num_hashes'], np.frombuffer(base64.b64decode(b64), dtype=int32))`.
The `num_hashes` field of the record is taken verbatim. -/
def bf_load (num_hashes : Nat) (bytes : List Nat) : BloomFilter :=
  { num_hashes := num_hashes, buckets := bytes_to_words bytes }

/-- `create_empty`'s validation guards, in source order: `error_rate`
outside `(0, 1)` and `capacity ≤ 0` each raise `ValueError` before any
sizing computation or allocation.  The subsequent floating-point sizing
math is outside this model; `Except.ok` marks that control reaches it.
The rate is an exact rational: every IEEE-754 double is a rational, and
the two comparisons are exact in both semantics. -/
def create_empty_checks (capacity : Int) (error_rate : ℚ) : Except String Unit :=
  if ¬(0 < error_rate ∧ error_rate < 1) then
    Except.error "Error_Rate must be between 0 and 1."
  else if ¬(capacity > 0) then
    Except.error "Capacity must be > 0"
  else
    Except.ok ()

/-! ### Helper lemmas: bits and words -/

/-- The membership test of one bucket word, `w & (1 << j) != 0`, reads bit `j`. -/
theorem and_shift_ne_eq_testBit (w j : Nat) :
    ((w &&& (1 <<< j)) != 0) = Nat.testBit w j := by
  have h1 : (1 : Nat) <<< j = 2 ^ j := by rw [Nat.shiftLeft_eq, one_mul]
  rw [h1, Nat.and_two_pow]
  cases h : Nat.testBit w j <;> simp [h, Nat.pow_eq_zero]

theorem getD_set_self (l : List Nat) (i v : Nat) (h : i < l.length) :
    (l.set i v).getD i 0 = v := by
  simp [List.getD_eq_getElem?_getD, List.getElem?_set, h]

theorem getD_set_ne (l : List Nat) (i j v : Nat) (h : i ≠ j) :
    (l.set i v).getD j 0 = l.getD j 0 := by
  simp [List.getD_eq_getElem?_getD, List.getElem?_set, h]

theorem getD_eq_zero_of_le (l : List Nat) (i : Nat) (h : l.length ≤ i) :
    l.getD i 0 = 0 := by
  simp [List.getD_eq_getElem?_getD, List.getElem?_eq_none h]

/-- Word-array ordering: same length, and every set bit of the first is set in
the second.  `add` and `union` only move the state of a filter upward in this
order: bits are set, never cleared. -/
def wordsLe (b1 b2 : List Nat) : Prop :=
  b1.length = b2.length ∧
    ∀ i j, Nat.testBit (b1.getD i 0) j = true → Nat.testBit (b2.getD i 0) j = true

theorem wordsLe_refl (b : List Nat) : wordsLe b b :=
  ⟨rfl, fun _ _ h => h⟩

theorem wordsLe_trans {b1 b2 b3 : List Nat} (h12 : wordsLe b1 b2)
    (h23 : wordsLe b2 b3) : wordsLe b1 b3 :=
  ⟨h12.1.trans h23.1, fun i j h => h23.2 i j (h12.2 i j h)⟩

theorem wordsLe_bf_add_step (bs : List Nat) (b : Nat) :
    wordsLe bs (bf_add_step bs b) := by
  unfold bf_add_step
  refine ⟨(List.length_set bs _ _).symm, fun i j h => ?_⟩
  by_cases hi : b / 32 = i
  · subst hi
    by_cases hlen : b / 32 < bs.length
    · rw [getD_set_self _ _ _ hlen, Nat.testBit_lor, h]
      rfl
    · rw [getD_eq_zero_of_le bs _ (Nat.le_of_not_lt hlen)] at h
      simp [Nat.zero_testBit] at h
  · rwa [getD_set_ne _ _ _ _ hi]

theorem wordsLe_bf_add (locs buckets : List Nat) :
    wordsLe buckets (bf_add locs buckets) := by
  induction locs generalizing buckets with
  | nil => exact wordsLe_refl _
  | cons b rest ih =>
    exact wordsLe_trans (wordsLe_bf_add_step buckets b) (ih (bf_add_step buckets b))

theorem length_bf_add (locs buckets : List Nat) :
    (bf_add locs buckets).length = buckets.length :=
  (wordsLe_bf_add locs buckets).1.symm

/-- After `bf_add`, the bit of every in-range location is set. -/
theorem bf_add_sets (locs buckets : List Nat) :
    ∀ b ∈ locs, b < buckets.length * 32 →
      Nat.testBit ((bf_add locs buckets).getD (b / 32) 0) (b % 32) = true := by
  induction locs generalizing buckets with
  | nil => intro b hb; exact absurd hb (List.not_mem_nil b)
  | cons c rest ih =>
    intro b hb hlt
    have hfold : bf_add (c :: rest) buckets = bf_add rest (bf_add_step buckets c) := by
      simp [bf_add, List.foldl_cons]
    rw [hfold]
    rcases List.mem_cons.mp hb with rfl | hb
    · have hidx : b / 32 < buckets.length := by omega
      have hset : Nat.testBit ((bf_add_step buckets b).getD (b / 32) 0) (b % 32) = true := by
        unfold bf_add_step
        rw [getD_set_self _ _ _ hidx, Nat.testBit_lor]
        have h2 : (1 : Nat) <<< (b % 32) = 2 ^ (b % 32) := by rw [Nat.shiftLeft_eq, one_mul]
        rw [h2, Nat.testBit_two_pow_self, Bool.or_true]
      exact (wordsLe_bf_add rest (bf_add_step buckets b)).2 _ _ hset
    · have hlen : (bf_add_step buckets c).length = buckets.length :=
        (wordsLe_bf_add_step buckets c).1.symm
      exact ih (bf_add_step buckets c) b hb (by rw [hlen]; exact hlt)

/-- `bf_test` is the conjunction of the per-location bit reads. -/
theorem bf_test_eq_true_iff (locs buckets : List Nat) :
    bf_test locs buckets = true ↔
      ∀ b ∈ locs, Nat.testBit (buckets.getD (b / 32) 0) (b % 32) = true := by
  unfold bf_test
  rw [List.all_eq_true]
  constructor
  · intro h b hb
    have := h b hb
    rwa [and_shift_ne_eq_testBit] at this
  · intro h b hb
    rw [and_shift_ne_eq_testBit]
    exact h b hb

/-- Bit-monotonicity of the membership test: raising bits never turns a
positive test negative. -/
theorem bf_test_mono {b1 b2 : List Nat} (h : wordsLe b1 b2) (locs : List Nat)
    (ht : bf_test locs b1 = true) : bf_test locs b2 = true := by
  rw [bf_test_eq_true_iff] at ht ⊢
  intro b hb
  exact h.2 _ _ (ht b hb)

/-! ### Helper lemmas: the location loop -/

theorem bf_loc_loop_length (b m : Int) (k : Nat) :
    ∀ x : Int, (bf_loc_loop b m k x).length = k := by
  induction k with
  | zero => intro x; rfl
  | succ n ih => intro x; simp [bf_loc_loop, ih]

/-- Every emitted location is below `m` (for a positive modulus): the loop
carrier stays in `[0, m)` and the `uint32` store can only shrink it. -/
theorem bf_loc_loop_lt (b : Int) (m : Nat) (hm : 0 < m) :
    ∀ (k : Nat) (x : Int), 0 ≤ x → x < (m : Int) →
      ∀ e ∈ bf_loc_loop b (m : Int) k x, e < m := by
  intro k
  induction k with
  | zero => intro x _ _ e he; simp [bf_loc_loop] at he
  | succ n ih =>
    intro x hx0 hxm e he
    rw [bf_loc_loop] at he
    rcases List.mem_cons.mp he with rfl | he
    · rw [if_neg (not_lt.mpr hx0)]
      by_cases hU : x < (U32 : Int)
      · rw [Int.emod_eq_of_lt hx0 hU]
        exact (Int.toNat_lt hx0).mpr hxm
      · have h1 : x % (U32 : Int) < (U32 : Int) :=
          Int.emod_lt_of_pos x (by norm_num [U32])
        have h0 : (0 : Int) ≤ x % (U32 : Int) := Int.emod_nonneg x (by norm_num [U32])
        exact (Int.toNat_lt h0).mpr (lt_of_lt_of_le h1 (le_trans (not_lt.mp hU) hxm.le))
    · exact ih ((x + b) % (m : Int))
        (Int.emod_nonneg _ (by exact_mod_cast hm.ne'))
        (Int.emod_lt_of_pos _ (by exact_mod_cast hm)) e he

/-- Head of the loop output, when the carrier is in range and `m ≤ 2^32`
(so the `uint32` store is lossless). -/
theorem bf_loc_loop_getD_zero (b : Int) (m : Nat) (hm32 : m ≤ U32) (k : Nat) (x : Int)
    (hx0 : 0 ≤ x) (hxm : x < (m : Int)) :
    (bf_loc_loop b (m : Int) (k + 1) x).getD 0 0 = x.toNat := by
  rw [bf_loc_loop, List.getD_cons_zero, if_neg (not_lt.mpr hx0)]
  have hU : x < (U32 : Int) := lt_of_lt_of_le hxm (by exact_mod_cast hm32)
  rw [Int.emod_eq_of_lt hx0 hU]

/-- Successor step of the loop output: each emitted location is the previous
one advanced by `b` modulo `m`, provided `m ≤ 2^32`. -/
theorem bf_loc_loop_getD_succ (b : Int) (m : Nat) (hm : 0 < m) (hm32 : m ≤ U32) :
    ∀ (i k : Nat) (x : Int), 0 ≤ x → x < (m : Int) → i + 1 < k →
      (bf_loc_loop b (m : Int) k x).getD (i + 1) 0 =
        ((((bf_loc_loop b (m : Int) k x).getD i 0 : Int) + b) % (m : Int)).toNat := by
  intro i
  induction i with
  | zero =>
    intro k x hx0 hxm hk
    obtain ⟨n, rfl⟩ : ∃ n, k = n + 2 := ⟨k - 2, by omega⟩
    have hx0' : (0 : Int) ≤ (x + b) % (m : Int) :=
      Int.emod_nonneg _ (by exact_mod_cast hm.ne')
    have hxm' : (x + b) % (m : Int) < (m : Int) :=
      Int.emod_lt_of_pos _ (by exact_mod_cast hm)
    rw [show n + 2 = (n + 1) + 1 from rfl, bf_loc_loop, List.getD_cons_succ,
      List.getD_cons_zero, bf_loc_loop_getD_zero b m hm32 n _ hx0' hxm',
      if_neg (not_lt.mpr hx0)]
    have hU : x < (U32 : Int) := lt_of_lt_of_le hxm (by exact_mod_cast hm32)
    rw [Int.emod_eq_of_lt hx0 hU, Int.toNat_of_nonneg hx0]
  | succ i ih =>
    intro k x hx0 hxm hk
    obtain ⟨n, rfl⟩ : ∃ n, k = n + 1 := ⟨k - 1, by omega⟩
    have hx0' : (0 : Int) ≤ (x + b) % (m : Int) :=
      Int.emod_nonneg _ (by exact_mod_cast hm.ne')
    have hxm' : (x + b) % (m : Int) < (m : Int) :=
      Int.emod_lt_of_pos _ (by exact_mod_cast hm)
    rw [bf_loc_loop, List.getD_cons_succ, List.getD_cons_succ,
      ih n _ hx0' hxm' (by omega)]

/-! ### Helper lemmas: word-wise union -/

theorem getD_zipWith_lor (b1 : List Nat) :
    ∀ (b2 : List Nat), b1.length = b2.length → ∀ i,
      (List.zipWith (fun x y => x ||| y) b1 b2).getD i 0 =
        b1.getD i 0 ||| b2.getD i 0 := by
  induction b1 with
  | nil =>
    intro b2 h i
    cases b2 with
    | nil => simp [List.getD]
    | cons y ys => simp at h
  | cons x xs ih =>
    intro b2 h i
    cases b2 with
    | nil => simp at h
    | cons y ys =>
      cases i with
      | zero => simp [List.getD_cons_zero]
      | succ j =>
        simp only [List.zipWith_cons_cons, List.getD_cons_succ]
        exact ih ys (by simpa using h) j

theorem wordsLe_zipWith_lor (b1 b2 : List Nat) (h : b1.length = b2.length) :
    wordsLe b1 (List.zipWith (fun x y => x ||| y) b1 b2) := by
  refine ⟨?_, fun i j hb => ?_⟩
  · rw [List.length_zipWith, h, min_self]
  · rw [getD_zipWith_lor b1 b2 h i, Nat.testBit_lor, hb]
    rfl

/-! ### Sequences of mutating calls -/

/-- A mutating call on a filter: `add` with some key, or `union` with some
other filter.  A failed `union` (mismatched `num_hashes` or bucket length)
raises before writing anything, so the state is unchanged. -/
inductive Op where
  | add (key : List Nat)
  | union (other : BloomFilter)

/-- The state of a filter after one call. -/
def applyOp (f : BloomFilter) : Op → BloomFilter
  | Op.add k => f.add k
  | Op.union g =>
    match BloomFilter.union f g with
    | Except.ok p => p.1
    | Except.error _ => f

/-- The state of a filter after a sequence of calls. -/
def applyOps (f : BloomFilter) (ops : List Op) : BloomFilter :=
  ops.foldl applyOp f

theorem applyOp_num_hashes (f : BloomFilter) (op : Op) :
    (applyOp f op).num_hashes = f.num_hashes := by
  cases op with
  | add k => rfl
  | union g =>
    unfold applyOp BloomFilter.union buckets_union
    by_cases h1 : f.num_hashes = g.num_hashes
    · by_cases h2 : f.buckets.length = g.buckets.length
      · simp [h1, h2]
      · simp [h1, h2]
    · simp [h1]

theorem applyOp_wordsLe (f : BloomFilter) (op : Op) :
    wordsLe f.buckets (applyOp f op).buckets := by
  cases op with
  | add k => exact wordsLe_bf_add _ _
  | union g =>
    unfold applyOp BloomFilter.union buckets_union
    by_cases h1 : f.num_hashes = g.num_hashes
    · by_cases h2 : f.buckets.length = g.buckets.length
      · simpa [h1, h2] using wordsLe_zipWith_lor f.buckets g.buckets h2
      · simp only [h1, if_true, h2, if_false]
        exact wordsLe_refl _
    · simp only [h1, if_false]
      exact wordsLe_refl _

theorem applyOps_num_hashes (f : BloomFilter) (ops : List Op) :
    (applyOps f ops).num_hashes = f.num_hashes := by
  induction ops generalizing f with
  | nil => rfl
  | cons op rest ih =>
    show (applyOps (applyOp f op) rest).num_hashes = _
    rw [ih, applyOp_num_hashes]

theorem applyOps_wordsLe (f : BloomFilter) (ops : List Op) :
    wordsLe f.buckets (applyOps f ops).buckets := by
  induction ops generalizing f with
  | nil => exact wordsLe_refl _
  | cons op rest ih =>
    exact wordsLe_trans (applyOp_wordsLe f op) (ih (applyOp f op))

/-- `add` and `union` calls never change the location sequence a filter
derives for a key: `num_hashes` and `m` are preserved. -/
theorem applyOps_locations (f : BloomFilter) (ops : List Op) (key : List Nat) :
    (applyOps f ops).locations key = f.locations key := by
  unfold BloomFilter.locations BloomFilter.m BloomFilter.n
  rw [applyOps_num_hashes, (applyOps_wordsLe f ops).1]

/-! ### Claim theorems -/

/-- A freshly added key tests positive. -/
theorem test_add_self (f : BloomFilter) (k : List Nat) (h : 0 < f.buckets.length) :
    (f.add k).test k = true := by
  have hm : 0 < f.m := by
    unfold BloomFilter.m BloomFilter.n
    omega
  have hlocs : ∀ b ∈ f.locations k, b < f.buckets.length * 32 := by
    intro b hb
    unfold BloomFilter.locations bf_calculate_locations at hb
    exact bf_loc_loop_lt _ f.m hm f.num_hashes _
      (Int.emod_nonneg _ (by exact_mod_cast hm.ne'))
      (Int.emod_lt_of_pos _ (by exact_mod_cast hm)) b hb
  have hlocsame : (f.add k).locations k = f.locations k := by
    unfold BloomFilter.locations BloomFilter.m BloomFilter.n BloomFilter.add
    simp [length_bf_add]
  unfold BloomFilter.test
  rw [hlocsame]
  show bf_test (f.locations k) (bf_add (f.locations k) f.buckets) = true
  rw [bf_test_eq_true_iff]
  intro b hb
  exact bf_add_sets (f.locations k) f.buckets b hb (hlocs b hb)

/-- C1: once `f.add(k)` has been called (on a filter with a nonempty bucket
array, as any filter on which `add` completes has), `f.test(k)` returns
`true`, and it remains `true` in every subsequent state of `f` reached by
further `add` or `union` calls: bits are only ever set, never cleared. -/
theorem C1_no_false_negatives (f : BloomFilter) (k : List Nat) (ops : List Op)
    (h : 0 < f.buckets.length) :
    (applyOps (f.add k) ops).test k = true := by
  have h1 : (f.add k).test k = true := test_add_self f k h
  unfold BloomFilter.test at h1 ⊢
  rw [applyOps_locations]
  exact bf_test_mono (applyOps_wordsLe (f.add k) ops) _ h1

theorem C1_no_false_negatives_witness :
    (applyOps ((BloomFilter.mk 2 [0, 0]).add [104, 105])
        [Op.add [104, 105, 33], Op.union (BloomFilter.mk 2 [5, 9]),
         Op.union (BloomFilter.mk 3 [1])]).test [104, 105] = true :=
  C1_no_false_negatives (BloomFilter.mk 2 [0, 0]) [104, 105] _ (by decide)

/-- Decoding the little-endian bytes of one word recovers the word. -/
theorem bytes_to_words_word (w : Nat) (rest : List Nat) (hw : w < U32) :
    bytes_to_words (word_to_bytes w ++ rest) = w :: bytes_to_words rest := by
  show bytes_to_words (w % 256 :: w / 256 % 256 :: w / 65536 % 256 :: w / 16777216 % 256 :: rest)
    = w :: bytes_to_words rest
  rw [bytes_to_words]
  have hw' : w < 4294967296 := hw
  congr 1
  omega

/-- Byte-level round trip for a whole word array of 32-bit patterns. -/
theorem bytes_to_words_flatMap (ws : List Nat) (h : ∀ w ∈ ws, w < U32) :
    bytes_to_words (ws.flatMap word_to_bytes) = ws := by
  induction ws with
  | nil => rfl
  | cons w rest ih =>
    rw [List.flatMap_cons, bytes_to_words_word w _ (h w (List.mem_cons_self w rest)),
      ih (fun x hx => h x (List.mem_cons.mpr (Or.inr hx)))]

/-- C2: serialization round trip.  For every filter (whose words are 32-bit
patterns, as numpy `int32` storage guarantees), `load (save f)` is the very
same filter: bit-for-bit equal bucket words, equal `num_hashes`, equal
derived `n` and `m`, and identical membership answers for every key —
in particular for every previously added key. -/
theorem C2_save_load_roundtrip (f : BloomFilter) (h : ∀ w ∈ f.buckets, w < U32) :
    bf_load (bf_save f).1 (bf_save f).2 = f ∧
      (bf_load (bf_save f).1 (bf_save f).2).buckets = f.buckets ∧
      (bf_load (bf_save f).1 (bf_save f).2).num_hashes = f.num_hashes ∧
      (bf_load (bf_save f).1 (bf_save f).2).n = f.n ∧
      (bf_load (bf_save f).1 (bf_save f).2).m = f.m ∧
      ∀ key, (bf_load (bf_save f).1 (bf_save f).2).test key = f.test key := by
  have heq : bf_load (bf_save f).1 (bf_save f).2 = f := by
    unfold bf_load bf_save
    rw [bytes_to_words_flatMap f.buckets h]
  refine ⟨heq, ?_, ?_, ?_, ?_, ?_⟩ <;> rw [heq]
  intro key
  rfl

theorem C2_save_load_roundtrip_witness :
    bf_load (bf_save (BloomFilter.mk 3 [1, 4294967295, 2863311530])).1
        (bf_save (BloomFilter.mk 3 [1, 4294967295, 2863311530])).2 =
      BloomFilter.mk 3 [1, 4294967295, 2863311530] :=
  (C2_save_load_roundtrip (BloomFilter.mk 3 [1, 4294967295, 2863311530]) (by decide)).1

/-- C3 counterexample: the claim's formula fails for a modulus above `2^32`.
The locations buffer is a numpy `uint32` array, so the stored index is the
loop value reduced `% 2^32`.  For `key = b"b"` the seed-0 hash is
`fnv_1a [98] 0 = 2178757408`, negative as an `int32`
(`toSigned32` gives `-2116209888`), so with `m = 2^33` the claimed first
location `x_0 = fnv_1a(key, 0) mod m` (normalized non-negative, i.e.
`2^33 - 2116209888 = 6473724704`) exceeds `2^32` and the code stores
`6473724704 - 2^32 = 2178757408` instead. -/
theorem C3_locations_counterexample :
    bf_calculate_locations 1 8589934592 [98] ≠
      [((toSigned32 (fnv_1a [98] 0)) % (8589934592 : Int)).toNat] := by
  decide

/-- C3 as amended: for every key, hash count, and bit count `m > 0`, the
generator emits exactly `num_hashes` indices, each in `[0, m)`; and
whenever `m ≤ 2^32` (so the `uint32` store is lossless) the first is
`fnv_1a(key, 0) mod m` (signed value, normalized non-negative) and each
subsequent one advances the previous by `fnv_1a(key, 1576284489)` mod `m`.
Determinism is definitional: the generator is a pure function of
`(num_hashes, m, key)`, so the last conjunct is reflexivity. -/
theorem C3_locations_spec (num_hashes m : Nat) (key : List Nat)
    (hm : 0 < m) :
    (bf_calculate_locations num_hashes m key).length = num_hashes ∧
      (∀ e ∈ bf_calculate_locations num_hashes m key, e < m) ∧
      (m ≤ U32 →
        (0 < num_hashes →
          (bf_calculate_locations num_hashes m key).getD 0 0 =
            ((toSigned32 (fnv_1a key 0)) % (m : Int)).toNat) ∧
        (∀ i, i + 1 < num_hashes →
          (bf_calculate_locations num_hashes m key).getD (i + 1) 0 =
            ((((bf_calculate_locations num_hashes m key).getD i 0 : Int) +
              toSigned32 (fnv_1a key 1576284489)) % (m : Int)).toNat)) ∧
      bf_calculate_locations num_hashes m key =
        bf_calculate_locations num_hashes m key := by
  have hmne : ((m : Int)) ≠ 0 := by exact_mod_cast hm.ne'
  have hmpos : (0 : Int) < (m : Int) := by exact_mod_cast hm
  have hx0 : (0 : Int) ≤ toSigned32 (fnv_1a key 0) % (m : Int) :=
    Int.emod_nonneg _ hmne
  have hxm : toSigned32 (fnv_1a key 0) % (m : Int) < (m : Int) :=
    Int.emod_lt_of_pos _ hmpos
  refine ⟨?_, ?_, fun hm32 => ⟨?_, ?_⟩, rfl⟩
  · unfold bf_calculate_locations
    exact bf_loc_loop_length _ _ _ _
  · unfold bf_calculate_locations
    exact bf_loc_loop_lt _ m hm num_hashes _ hx0 hxm
  · intro h0
    obtain ⟨nh, rfl⟩ : ∃ nh, num_hashes = nh + 1 := ⟨num_hashes - 1, by omega⟩
    unfold bf_calculate_locations
    rw [bf_loc_loop_getD_zero _ m hm32 nh _ hx0 hxm]
  · intro i hi
    unfold bf_calculate_locations
    exact bf_loc_loop_getD_succ _ m hm hm32 i num_hashes _ hx0 hxm hi

theorem C3_locations_spec_witness :
    (bf_calculate_locations 3 64 [104, 105]).length = 3 ∧
      ∀ e ∈ bf_calculate_locations 3 64 [104, 105], e < 64 :=
  ⟨(C3_locations_spec 3 64 [104, 105] (by decide)).1,
   (C3_locations_spec 3 64 [104, 105] (by decide)).2.1⟩

/-- C4: the shift-and-add expression of `fnv_multiply`, evaluated with
32-bit wraparound, is multiplication by the FNV prime 16777619 modulo
`2^32` (for every `Nat` input, hence for every 32-bit value). -/
theorem C4_fnv_multiply_is_prime_mul (a : Nat) :
    fnv_multiply a = a * 16777619 % U32 := by
  unfold fnv_multiply U32
  rw [Nat.shiftLeft_eq, Nat.shiftLeft_eq, Nat.shiftLeft_eq, Nat.shiftLeft_eq,
    Nat.shiftLeft_eq]
  norm_num
  ring_nf

/-- C6: an incompatible `union` — mismatched `num_hashes`, or mismatched
bucket-array word length — fails with an error.  Both asserts fire before
the merge loop writes a single word, so no post-state is produced: both
operands keep their bit arrays, `num_hashes`, and sizes exactly as they
were (the model returns only an error, never a modified pair). -/
theorem C6_union_incompatible_fails (f1 f2 : BloomFilter)
    (h : f1.num_hashes ≠ f2.num_hashes ∨ f1.buckets.length ≠ f2.buckets.length) :
    ∃ e, BloomFilter.union f1 f2 = Except.error e := by
  unfold BloomFilter.union buckets_union
  by_cases h1 : f1.num_hashes = f2.num_hashes
  · have h2 : f1.buckets.length ≠ f2.buckets.length := by tauto
    rw [if_pos h1, if_neg h2]
    exact ⟨_, rfl⟩
  · rw [if_neg h1]
    exact ⟨_, rfl⟩

theorem C6_union_incompatible_fails_witness :
    ∃ e, BloomFilter.union (BloomFilter.mk 1 [0]) (BloomFilter.mk 2 [0]) =
      Except.error e :=
  C6_union_incompatible_fails (BloomFilter.mk 1 [0]) (BloomFilter.mk 2 [0])
    (Or.inl (by decide))

/-- C7: a compatible `union` (equal `num_hashes`, equal word length)
succeeds, replacing each word `i` of the receiver by the bitwise OR of the
two word `i`s, keeping the receiver's `num_hashes`, `n`, and `m`, and
returning the mutated receiver (`return self`); the argument is returned
untouched as the second component — the code never writes to it. -/
theorem C7_union_semantics (f1 f2 : BloomFilter)
    (hn : f1.num_hashes = f2.num_hashes)
    (hl : f1.buckets.length = f2.buckets.length) :
    ∃ g, BloomFilter.union f1 f2 = Except.ok (g, f2) ∧
      g.num_hashes = f1.num_hashes ∧
      g.buckets.length = f1.buckets.length ∧
      g.n = f1.n ∧ g.m = f1.m ∧
      ∀ i, g.buckets.getD i 0 = f1.buckets.getD i 0 ||| f2.buckets.getD i 0 := by
  refine ⟨{ f1 with buckets := List.zipWith (fun x y => x ||| y) f1.buckets f2.buckets },
    ?_, rfl, ?_, ?_, ?_, ?_⟩
  · unfold BloomFilter.union buckets_union
    rw [if_pos hn, if_pos hl]
  · rw [List.length_zipWith, hl, min_self]
  · unfold BloomFilter.n
    rw [List.length_zipWith, hl, min_self]
  · unfold BloomFilter.m BloomFilter.n
    rw [List.length_zipWith, hl, min_self]
  · exact getD_zipWith_lor f1.buckets f2.buckets hl

theorem C7_union_semantics_witness :
    ∃ g, BloomFilter.union (BloomFilter.mk 2 [1, 4]) (BloomFilter.mk 2 [2, 4]) =
        Except.ok (g, BloomFilter.mk 2 [2, 4]) ∧
      g.num_hashes = 2 ∧
      g.buckets.length = 2 ∧
      g.n = 2 ∧ g.m = 64 ∧
      ∀ i, g.buckets.getD i 0 =
        [1, 4].getD i 0 ||| [2, 4].getD i 0 :=
  C7_union_semantics (BloomFilter.mk 2 [1, 4]) (BloomFilter.mk 2 [2, 4])
    (by decide) (by decide)

/-- C8: `create_empty` validation.  For every `capacity ≤ 0` and for every
`error_rate` outside the open interval `(0, 1)`, the construction fails
with a `ValueError` raised by the guards at the top of `create_empty`,
before the sizing computation or any allocation runs; no filter is
returned (the model yields `Except.error`, never `Except.ok`). -/
theorem C8_create_empty_validation (capacity : Int) (error_rate : ℚ)
    (h : capacity ≤ 0 ∨ error_rate ≤ 0 ∨ 1 ≤ error_rate) :
    ∃ e, create_empty_checks capacity error_rate = Except.error e := by
  unfold create_empty_checks
  by_cases hr : 0 < error_rate ∧ error_rate < 1
  · have hc : ¬ capacity > 0 := by
      rcases h with h | h | h
      · omega
      · exact absurd hr.1 (not_lt.mpr h)
      · exact absurd hr.2 (not_lt.mpr h)
    rw [if_neg (not_not_intro hr), if_pos hc]
    exact ⟨_, rfl⟩
  · rw [if_pos hr]
    exact ⟨_, rfl⟩

theorem C8_create_empty_validation_witness :
    (∃ e, create_empty_checks 0 (1 / 100) = Except.error e) ∧
      (∃ e, create_empty_checks (-5) (1 / 100) = Except.error e) ∧
      (∃ e, create_empty_checks 10 1 = Except.error e) :=
  ⟨C8_create_empty_validation 0 (1 / 100) (Or.inl (by norm_num)),
   C8_create_empty_validation (-5) (1 / 100) (Or.inl (by norm_num)),
   C8_create_empty_validation 10 1 (Or.inr (Or.inr (by norm_num)))⟩

/-- C9 counterexample: `load` takes the record's `num_hashes` verbatim, so
the serialized record `{num_hashes: 0, buckets: <one zero word>}` — whose
field is a non-negative integer, as the format requires — produces a
`BloomFilter` instance with `num_hashes = 0`, violating the claimed
`num_hashes ≥ 1` invariant (its `m = n * 32` half does hold). -/
theorem C9_invariant_counterexample :
    (bf_load 0 (word_to_bytes 0)).n = 1 ∧
      (bf_load 0 (word_to_bytes 0)).num_hashes = 0 ∧
      ¬ 1 ≤ (bf_load 0 (word_to_bytes 0)).num_hashes := by
  decide

/-- C9 as amended: the data-model invariant that does hold.  Every
instance satisfies `m = n * 32` (`__init__` derives `m` from the array
length), and `num_hashes ≥ 1` is preserved by every sequence of `add` and
`union` calls; but `load` copies the record's `num_hashes` field verbatim,
so a loaded filter satisfies `num_hashes ≥ 1` exactly when the record's
field is at least 1 — a record with `num_hashes = 0` yields an instance
violating the invariant. -/
theorem C9_invariant_amended (f : BloomFilter) (ops : List Op)
    (h : 1 ≤ f.num_hashes) :
    1 ≤ (applyOps f ops).num_hashes ∧
      (applyOps f ops).m = (applyOps f ops).n * 32 ∧
      ∀ nh bytes, (bf_load nh bytes).m = (bf_load nh bytes).n * 32 ∧
        ((bf_load nh bytes).num_hashes = nh) ∧
        (1 ≤ (bf_load nh bytes).num_hashes ↔ 1 ≤ nh) := by
  refine ⟨?_, rfl, fun nh bytes => ⟨rfl, rfl, Iff.rfl⟩⟩
  rw [applyOps_num_hashes]
  exact h

theorem C9_invariant_amended_witness :
    1 ≤ (applyOps (BloomFilter.mk 2 [0])
        [Op.add [104], Op.union (BloomFilter.mk 2 [3])]).num_hashes :=
  (C9_invariant_amended (BloomFilter.mk 2 [0])
    [Op.add [104], Op.union (BloomFilter.mk 2 [3])] (by decide)).1

/-- The canonical seeded single-step-per-byte FNV-1a loop followed by the
final mixing transform, stated from the spec for the refinement claim C10:
per byte, XOR the byte into the accumulator and multiply by the prime; no
wide-byte branch. -/
def fnv_1a_canonical (v : List Nat) (seed : Nat) : Nat :=
  fnv_mix (v.foldl (fun a c => fnv_multiply (a ^^^ c)) (2166136261 ^^^ seed))

set_option maxRecDepth 4096 in
theorem byte_and_masks : ∀ c < 256, c &&& 0xff00 = 0 ∧ c &&& 0xff = c := by
  decide

/-- On a byte, the wide-byte branch of the `fnv_1a` loop body is dead and
the low mask is the identity: the body is XOR-then-multiply. -/
theorem fnv_1a_step_byte (a c : Nat) (hc : c < 256) :
    fnv_1a_step a c = fnv_multiply (a ^^^ c) := by
  obtain ⟨hd, hlow⟩ := byte_and_masks c hc
  simp [fnv_1a_step, hd, hlow]

theorem foldl_fnv_1a_step_bytes :
    ∀ (v : List Nat), (∀ c ∈ v, c ≤ 255) → ∀ a : Nat,
      v.foldl fnv_1a_step a = v.foldl (fun a c => fnv_multiply (a ^^^ c)) a := by
  intro v
  induction v with
  | nil => intro _ a; rw [List.foldl_nil, List.foldl_nil]
  | cons c rest ih =>
    intro h a
    have hc : c < 256 := Nat.lt_succ_of_le (h c (List.mem_cons_self c rest))
    rw [List.foldl_cons, List.foldl_cons, fnv_1a_step_byte a c hc]
    exact ih (fun x hx => h x (List.mem_cons.mpr (Or.inr hx))) _

/-- C10: on byte inputs (every element at most 255 — which is every key
reaching the hash through the public `add`/`test` interface, since keys
are UTF-8-encoded to bytes first), the wide-byte branch of `fnv_1a`
(`c & 0xff00` nonzero) never executes, and `fnv_1a` coincides with the
canonical seeded one-step-per-byte FNV-1a loop followed by the final mix. -/
theorem C10_fnv_1a_canonical_on_bytes (v : List Nat) (seed : Nat)
    (h : ∀ c ∈ v, c ≤ 255) :
    fnv_1a v seed = fnv_1a_canonical v seed := by
  unfold fnv_1a fnv_1a_canonical
  rw [foldl_fnv_1a_step_bytes v h]
theorem C10_fnv_1a_canonical_on_bytes_witness :
    fnv_1a [104, 105] 0 = fnv_1a_canonical [104, 105] 0 :=
  C10_fnv_1a_canonical_on_bytes [104, 105] 0 (by decide)
